import Mathlib

/-!
Verification of the hue-wheel generator (src/hue-wheel.v1.0.4.js).

JavaScript numbers are embedded as rationals (`ℚ`); the JS remainder
operator `%` (which truncates toward zero, so the result carries the sign
of the dividend) is embedded as `jsMod`; `Math.floor` and `Math.ceil` are
`Int.floor` and `Int.ceil`.  Fallible host plumbing (canvas lookup,
devicePixelRatio) is outside the algorithmic core and is not modelled;
the rasterizer is embedded as a pure fold over the pixel grid, with the
transcendental `Math.atan2`-based angle computation abstracted as an
arbitrary function of the pixel coordinates.
-/

set_option maxRecDepth 40000

/-- Truncation toward zero of a rational, as JavaScript's number-to-integer
truncation used by `%`. -/
def rtrunc (q : ℚ) : ℤ := if 0 ≤ q then ⌊q⌋ else ⌈q⌉

/-- JavaScript's `%` on numbers: `a - b * trunc(a / b)`; the result carries
the sign of the dividend `a`. -/
def jsMod (a b : ℚ) : ℚ := a - b * (rtrunc (a / b) : ℚ)

/-- Embedding of `roundUp(num, at)` (source lines 16-20): returns
`Math.ceil(num)` when `num + (10 - at)/10 >= Math.ceil(num)`, otherwise
`Math.floor(num)`.  With `at = 5` this is round-half-up to the nearest
integer. -/
def roundUp (num : ℚ) (a : ℚ) : ℤ :=
  let add_on : ℚ := (10 - a) * (1/10)
  if (⌈num⌉ : ℚ) ≤ num + add_on then ⌈num⌉ else ⌊num⌋

/-- Embedding of `hsl2rgb(hue, sat, lig)` (source lines 32-82).  The three
returned channels are the `Math.floor` results, hence integers. -/
def hsl2rgb (hue sat lig : ℚ) : ℤ × ℤ × ℤ :=
  let chroma : ℚ := (1 - |2 * lig - 1|) * sat
  let intermediate_hue : ℚ := hue / 60
  let intermediate_value : ℚ := chroma * (1 - |jsMod intermediate_hue 2 - 1|)
  let add_on : ℚ := lig - chroma * (1/2)
  let intermediate_rgb : ℚ × ℚ × ℚ :=
    if ⌊intermediate_hue⌋ = 0 then (chroma, intermediate_value, 0)
    else if ⌊intermediate_hue⌋ = 1 then (intermediate_value, chroma, 0)
    else if ⌊intermediate_hue⌋ = 2 then (0, chroma, intermediate_value)
    else if ⌊intermediate_hue⌋ = 3 then (0, intermediate_value, chroma)
    else if ⌊intermediate_hue⌋ = 4 then (intermediate_value, 0, chroma)
    else if ⌊intermediate_hue⌋ = 5 then (chroma, 0, intermediate_value)
    else if ⌊intermediate_hue⌋ = 6 then (chroma, 0, intermediate_value)
    else (0, 0, 0)
  (⌊(intermediate_rgb.1 + add_on) * 255⌋,
   ⌊(intermediate_rgb.2.1 + add_on) * 255⌋,
   ⌊(intermediate_rgb.2.2 + add_on) * 255⌋)

/-- Embedding of `rgb2hsl(R, G, B)` (source lines 94-134). -/
def rgb2hsl (R G B : ℚ) : ℚ × ℚ × ℚ :=
  let r : ℚ := R / 255
  let g : ℚ := G / 255
  let b : ℚ := B / 255
  let MAX : ℚ := max r (max g b)
  let MIN : ℚ := min r (min g b)
  let hue0 : ℚ :=
    if MAX = MIN then 0
    else if MAX = r then 60 * (g - b) / (MAX - MIN)
    else if MAX = g then 60 * (2 + (b - r) / (MAX - MIN))
    else 60 * (4 + (r - g) / (MAX - MIN))
  let hue : ℚ := if hue0 < 0 then hue0 + 360 else hue0
  let lightness : ℚ := (MAX + MIN) * (1/2)
  let saturation : ℚ :=
    if MAX = 0 ∨ MIN = 1 then 0
    else (MAX - lightness) / min lightness (1 - lightness)
  ((roundUp hue 5 : ℚ),
   (roundUp (saturation * 100) 5 : ℚ) * (1/100),
   (roundUp (lightness * 100) 5 : ℚ) * (1/100))

/-- Embedding of `getHue(redStart, theta, style)` (source lines 143-156).
`theta || 1` remaps an exact zero `theta` to `1`. -/
def getHue (redStart theta : ℚ) (style : ℤ) : ℚ :=
  let temp0 : ℚ := if theta = 0 then 1 else theta
  let temp : ℚ :=
    if style ≠ 0 then jsMod (360 + 2 * redStart - temp0) 360 else temp0
  jsMod (360 + temp - redStart) 360

/-- Mathematical remainder on rationals, the reading of "mod" used by the
specification's hue-mapper formulas (the spec also guarantees the result is
in `[0,360)`, which forces the floor-based remainder). -/
def specMod (a b : ℚ) : ℚ := a - b * (⌊a / b⌋ : ℚ)

/-- Hue mapper as written in the specification (section 4.2), with "mod"
read as the mathematical remainder `specMod`: `theta` of exactly 0 is
treated as 1; for style 1 first `theta' = (360 + 2*redStart - theta) mod
360`; the result is `(360 + theta' - redStart) mod 360`. -/
def getHueSpec (redStart theta : ℚ) (style : ℤ) : ℚ :=
  let t : ℚ := if theta = 0 then 1 else theta
  let t' : ℚ :=
    if style ≠ 0 then specMod (360 + 2 * redStart - t) 360 else t
  specMod (360 + t' - redStart) 360

/-- Conversion applied when storing a number into a `Uint8ClampedArray`
cell: clamp into `[0,255]` (the stored values are already integers here). -/
def clampByte (v : ℤ) : ℤ := max 0 (min 255 v)

/-- The per-render configuration fields read by the pixel loop of
`drawHueWheel` (source line 170): `redStart`, `style`, `saturation`,
`lightness`, `opacity`.  The radii are passed separately, already scaled. -/
structure WheelConfig where
  redStart : ℚ
  style : ℤ
  saturation : ℚ
  lightness : ℚ
  opacity : ℤ

/-- The RGBA quadruple stored for one in-ring pixel (source lines 251-272):
hue from `getHue` at the pixel's angle, then `hsl2rgb`, then the opacity
byte.  It depends only on the pixel's own coordinates and the
configuration. -/
def pixelRGBA (angle : ℤ → ℤ → ℚ) (cfg : WheelConfig) (x y : ℤ) :
    ℤ × ℤ × ℤ × ℤ :=
  let rgb := hsl2rgb (getHue cfg.redStart (angle x y) cfg.style)
      cfg.saturation cfg.lightness
  (clampByte rgb.1, clampByte rgb.2.1, clampByte rgb.2.2, clampByte cfg.opacity)

/-- Component `k` (0,1,2,3) of an RGBA quadruple. -/
def byteOf (v : ℤ × ℤ × ℤ × ℤ) (k : ℤ) : ℤ :=
  if k = 0 then v.1 else if k = 1 then v.2.1 else if k = 2 then v.2.2.1
  else v.2.2.2

/-- Buffer index of the first byte of the pixel at center-relative
coordinates `(x, y)` (source lines 239-244): row `y + o`, column `x + o`,
row length `2*o`, 4 bytes per pixel. -/
def pixelIndex (o : ℕ) (x y : ℤ) : ℤ :=
  ((y + (o : ℤ)) * (2 * (o : ℤ)) + (x + (o : ℤ))) * 4

/-- Body of the inner loop of `drawHueWheel` (source lines 226-273): skip
the pixel when its squared center distance is outside
`[square_i, square_o]`, otherwise store the four RGBA bytes at its index. -/
def renderPixel (angle : ℤ → ℤ → ℚ) (square_i square_o : ℤ) (o : ℕ)
    (cfg : WheelConfig) (buf : ℤ → ℤ) (x y : ℤ) : ℤ → ℤ :=
  let square_d : ℤ := x * x + y * y
  if square_d > square_o ∨ square_d < square_i then buf
  else
    let v := pixelRGBA angle cfg x y
    let index := pixelIndex o x y
    Function.update
      (Function.update
        (Function.update (Function.update buf index v.1) (index + 1) v.2.1)
        (index + 2) v.2.2.1)
      (index + 3) v.2.2.2

/-- The coordinate range `-o, -o+1, ..., o-1` iterated by each of the two
loops of `drawHueWheel` (source lines 225-226). -/
def coords (o : ℕ) : List ℤ :=
  (List.range (2 * o)).map (fun i : ℕ => (i : ℤ) - (o : ℤ))

/-- All `(x, y)` pairs in the iteration order of the nested loops of
`drawHueWheel`: `x` outer, `y` inner. -/
def wheelPixels (o : ℕ) : List (ℤ × ℤ) :=
  (coords o).flatMap (fun x => (coords o).map (fun y => (x, y)))

/-- Embedding of the pixel-generation loop of `drawHueWheel` (source lines
225-274) over an abstract angle function and a caller-supplied byte
buffer.  The radii are in device pixels (already scaled). -/
def render (angle : ℤ → ℤ → ℚ) (inner_radius thickness : ℕ)
    (cfg : WheelConfig) (pixels : ℤ → ℤ) : ℤ → ℤ :=
  let outer_radius := inner_radius + thickness
  let square_o : ℤ := (outer_radius : ℤ) * (outer_radius : ℤ)
  let square_i : ℤ := (inner_radius : ℤ) * (inner_radius : ℤ)
  (wheelPixels outer_radius).foldl
    (fun b p => renderPixel angle square_i square_o outer_radius cfg b p.1 p.2)
    pixels

/-! ### Arithmetic facts about the JavaScript remainder -/

theorem rtrunc_of_nonneg {q : ℚ} (h : 0 ≤ q) : rtrunc q = ⌊q⌋ := if_pos h

theorem jsMod_nonneg_bounds (a : ℚ) (ha : 0 ≤ a) :
    0 ≤ jsMod a 360 ∧ jsMod a 360 < 360 := by
  have hq : (0:ℚ) ≤ a / 360 := by positivity
  have h1 : ((⌊a / 360⌋ : ℚ)) ≤ a / 360 := Int.floor_le _
  have h2 : a / 360 < (⌊a / 360⌋ : ℚ) + 1 := Int.lt_floor_add_one _
  rw [jsMod, rtrunc_of_nonneg hq]
  constructor <;> nlinarith

theorem jsMod_nonpos_bounds (a : ℚ) (ha : a ≤ 0) :
    -360 < jsMod a 360 ∧ jsMod a 360 ≤ 0 := by
  rw [jsMod, rtrunc]
  rcases le_or_lt 0 (a / 360) with hq | hq
  · have ha0 : a = 0 := by
      have h0 : 0 ≤ a := by
        rwa [le_div_iff₀ (by norm_num : (0:ℚ) < 360), zero_mul] at hq
      linarith
    rw [if_pos hq, ha0]
    norm_num
  · rw [if_neg (not_le.mpr hq)]
    have h1 : a / 360 ≤ ((⌈a / 360⌉ : ℚ)) := Int.le_ceil _
    have h2 : ((⌈a / 360⌉ : ℚ)) < a / 360 + 1 := Int.ceil_lt_add_one _
    constructor <;> nlinarith

theorem jsMod_eq_self (a : ℚ) (h1 : -360 < a) (h2 : a < 360) :
    jsMod a 360 = a := by
  rw [jsMod, rtrunc]
  rcases le_or_lt 0 (a / 360) with hq | hq
  · rw [if_pos hq]
    have hfl : ⌊a / 360⌋ = 0 := by
      rw [Int.floor_eq_zero_iff, Set.mem_Ico]
      exact ⟨hq, by rw [div_lt_one (by norm_num : (0:ℚ) < 360)]; linarith⟩
    rw [hfl]
    push_cast
    ring
  · rw [if_neg (not_le.mpr hq)]
    have hcl : ⌈a / 360⌉ = 0 := by
      rw [Int.ceil_eq_zero_iff, Set.mem_Ioc]
      constructor
      · rw [lt_div_iff₀ (by norm_num : (0:ℚ) < 360)]
        linarith
      · exact le_of_lt hq
    rw [hcl]
    push_cast
    ring

theorem jsMod_sub_int (a : ℚ) : ∃ k : ℤ, a - jsMod a 360 = 360 * k := by
  refine ⟨rtrunc (a / 360), ?_⟩
  rw [jsMod]
  ring

theorem jsMod_add_step (a δ : ℚ) (h0 : 0 < δ) (h1 : δ < 360) :
    jsMod (a + δ) 360 = jsMod a 360 + δ ∨
    jsMod (a + δ) 360 = jsMod a 360 + δ - 360 := by
  rcases le_or_lt 0 a with ha | ha
  · obtain ⟨k1, e1⟩ := jsMod_sub_int a
    obtain ⟨k2, e2⟩ := jsMod_sub_int (a + δ)
    obtain ⟨m1a, m1b⟩ := jsMod_nonneg_bounds a ha
    obtain ⟨m2a, m2b⟩ := jsMod_nonneg_bounds (a + δ) (by linarith)
    have key : jsMod (a + δ) 360 - jsMod a 360 - δ = 360 * ((k1 : ℚ) - k2) := by
      linarith
    have hb1 : (-720 : ℚ) < 360 * ((k1 : ℚ) - k2) := by linarith
    have hb2 : 360 * ((k1 : ℚ) - k2) < 360 := by linarith
    have hz : k1 - k2 = -1 ∨ k1 - k2 = 0 := by
      have c1 : (-2 : ℚ) < ((k1 - k2 : ℤ) : ℚ) := by push_cast; linarith
      have c2 : ((k1 - k2 : ℤ) : ℚ) < 1 := by push_cast; linarith
      have d1 : (-2 : ℤ) < k1 - k2 := by exact_mod_cast c1
      have d2 : (k1 - k2 : ℤ) < 1 := by exact_mod_cast c2
      omega
    rcases hz with hz | hz
    · right
      have hc : ((k1 : ℚ) - k2) = -1 := by
        have h' : ((k1 - k2 : ℤ) : ℚ) = -1 := by rw [hz]; norm_num
        push_cast at h'
        linarith
      rw [hc] at key
      linarith
    · left
      have hc : ((k1 : ℚ) - k2) = 0 := by
        have h' : ((k1 - k2 : ℤ) : ℚ) = 0 := by rw [hz]; norm_num
        push_cast at h'
        linarith
      rw [hc] at key
      linarith
  · rcases le_or_lt (a + δ) 0 with hb | hb
    · obtain ⟨k1, e1⟩ := jsMod_sub_int a
      obtain ⟨k2, e2⟩ := jsMod_sub_int (a + δ)
      obtain ⟨m1a, m1b⟩ := jsMod_nonpos_bounds a (le_of_lt ha)
      obtain ⟨m2a, m2b⟩ := jsMod_nonpos_bounds (a + δ) hb
      have key : jsMod (a + δ) 360 - jsMod a 360 - δ = 360 * ((k1 : ℚ) - k2) := by
        linarith
      have hb1 : (-720 : ℚ) < 360 * ((k1 : ℚ) - k2) := by linarith
      have hb2 : 360 * ((k1 : ℚ) - k2) < 360 := by linarith
      have hz : k1 - k2 = -1 ∨ k1 - k2 = 0 := by
        have c1 : (-2 : ℚ) < ((k1 - k2 : ℤ) : ℚ) := by push_cast; linarith
        have c2 : ((k1 - k2 : ℤ) : ℚ) < 1 := by push_cast; linarith
        have d1 : (-2 : ℤ) < k1 - k2 := by exact_mod_cast c1
        have d2 : (k1 - k2 : ℤ) < 1 := by exact_mod_cast c2
        omega
      rcases hz with hz | hz
      · right
        have hc : ((k1 : ℚ) - k2) = -1 := by
          have h' : ((k1 - k2 : ℤ) : ℚ) = -1 := by rw [hz]; norm_num
          push_cast at h'
          linarith
        rw [hc] at key
        linarith
      · left
        have hc : ((k1 : ℚ) - k2) = 0 := by
          have h' : ((k1 - k2 : ℤ) : ℚ) = 0 := by rw [hz]; norm_num
          push_cast at h'
          linarith
        rw [hc] at key
        linarith
    · left
      rw [jsMod_eq_self a (by linarith) (by linarith),
        jsMod_eq_self (a + δ) (by linarith) (by linarith)]

theorem jsMod_sub_step (a δ : ℚ) (h0 : 0 < δ) (h1 : δ < 360) :
    jsMod (a - δ) 360 = jsMod a 360 - δ ∨
    jsMod (a - δ) 360 = jsMod a 360 - δ + 360 := by
  have h := jsMod_add_step (a - δ) δ h0 h1
  rw [sub_add_cancel] at h
  rcases h with h | h
  · left; linarith
  · right; linarith

/-! ### Claims about the hue mapper -/

/-- C1 counterexample: `getHue` uses the JavaScript remainder, so for
`redStart = 1000` (outside `[0,360]`) and `theta = 90` the result is
`-190`, not in `[0,360)`: the claim fails for arbitrary real `redStart`. -/
theorem getHue_not_in_range_for_all_reals :
    ¬ (0 ≤ getHue 1000 90 0 ∧ getHue 1000 90 0 < 360) := by
  with_unfolding_all decide

/-- C1 (amended): for `redStart` and `theta` in the documented domain
`[0,360]` and either direction, `getHue redStart theta style` lies in
`[0,360)`. -/
theorem getHue_range_in_domain (redStart theta : ℚ) (style : ℤ)
    (h1 : 0 ≤ redStart) (h2 : redStart ≤ 360)
    (h3 : 0 ≤ theta) (h4 : theta ≤ 360) :
    0 ≤ getHue redStart theta style ∧ getHue redStart theta style < 360 := by
  rw [getHue]
  have ht : 0 < (if theta = 0 then (1:ℚ) else theta) ∧
      (if theta = 0 then (1:ℚ) else theta) ≤ 360 := by
    split_ifs with h
    · norm_num
    · exact ⟨lt_of_le_of_ne h3 (Ne.symm h), h4⟩
  by_cases hs : style ≠ 0
  · rw [if_pos hs]
    obtain ⟨hu1, hu2⟩ := jsMod_nonneg_bounds
      (360 + 2 * redStart - (if theta = 0 then (1:ℚ) else theta))
      (by linarith [ht.1, ht.2])
    exact jsMod_nonneg_bounds _ (by linarith)
  · rw [if_neg hs]
    exact jsMod_nonneg_bounds _ (by linarith [ht.1])

/-- C1 witness: the amended range theorem applied at
`redStart = 90, theta = 45, style = 1`. -/
theorem getHue_range_in_domain_witness :
    ((0:ℚ) ≤ 90 ∧ (90:ℚ) ≤ 360 ∧ (0:ℚ) ≤ 45 ∧ (45:ℚ) ≤ 360) ∧
    (0 ≤ getHue 90 45 1 ∧ getHue 90 45 1 < 360) :=
  ⟨by norm_num,
   getHue_range_in_domain 90 45 1 (by norm_num) (by norm_num) (by norm_num)
     (by norm_num)⟩

theorem jsMod_eq_specMod_of_nonneg (a : ℚ) (h : 0 ≤ a) :
    jsMod a 360 = specMod a 360 := by
  rw [jsMod, specMod, rtrunc_of_nonneg (by positivity : (0:ℚ) ≤ a / 360)]

/-- C5 counterexample: the code computes with the JavaScript remainder
(sign of the dividend), not the mathematical mod of the spec formula: at
`redStart = 1000, theta = 90, style = 0` the code yields `-190` while the
formula yields `170`. -/
theorem getHue_ne_spec_formula_for_all_reals :
    getHue 1000 90 0 ≠ getHueSpec 1000 90 0 := by
  with_unfolding_all decide

/-- C5 (amended): for `redStart` and `theta` in the documented domain
`[0,360]`, `getHue` computes exactly the spec formula (with mathematical
mod): `t` is `theta` except that an exact zero becomes `1`; for style 1
the result is `(360 + ((360 + 2*redStart - t) mod 360) - redStart) mod
360`, otherwise `(360 + t - redStart) mod 360`; in particular
`getHue 90 90 CW_RBG = 0`. -/
theorem getHue_eq_spec_formula_in_domain (redStart theta : ℚ) (style : ℤ)
    (h1 : 0 ≤ redStart) (h2 : redStart ≤ 360)
    (h3 : 0 ≤ theta) (h4 : theta ≤ 360) :
    getHue redStart theta style = getHueSpec redStart theta style ∧
    getHue 90 90 0 = 0 := by
  constructor
  · rw [getHue, getHueSpec]
    have ht : 0 < (if theta = 0 then (1:ℚ) else theta) ∧
        (if theta = 0 then (1:ℚ) else theta) ≤ 360 := by
      split_ifs with h
      · norm_num
      · exact ⟨lt_of_le_of_ne h3 (Ne.symm h), h4⟩
    by_cases hs : style ≠ 0
    · rw [if_pos hs, if_pos hs]
      have hinner : 0 ≤ 360 + 2 * redStart - (if theta = 0 then (1:ℚ) else theta) := by
        linarith [ht.1, ht.2]
      rw [← jsMod_eq_specMod_of_nonneg _ hinner]
      obtain ⟨hu1, hu2⟩ := jsMod_nonneg_bounds _ hinner
      exact jsMod_eq_specMod_of_nonneg _ (by linarith)
    · rw [if_neg hs, if_neg hs]
      exact jsMod_eq_specMod_of_nonneg _ (by linarith [ht.1])
  · with_unfolding_all decide

/-- C5 witness: the amended formula theorem applied at
`redStart = 45, theta = 180, style = 1`. -/
theorem getHue_eq_spec_formula_witness :
    ((0:ℚ) ≤ 45 ∧ (45:ℚ) ≤ 360 ∧ (0:ℚ) ≤ 180 ∧ (180:ℚ) ≤ 360) ∧
    (getHue 45 180 1 = getHueSpec 45 180 1 ∧ getHue 90 90 0 = 0) :=
  ⟨by norm_num,
   getHue_eq_spec_formula_in_domain 45 180 1 (by norm_num) (by norm_num)
     (by norm_num) (by norm_num)⟩

/-- C6 counterexample: at `theta = 0` the `theta || 1` quirk remaps 0 to 1,
so increasing `theta` from `0` to `1/2` with the default style 0 strictly
DECREASES the hue (271 down to 270.5), with no wrap-around involved: the
claim fails at `theta = 0`. -/
theorem getHue_step_fails_at_theta_zero :
    getHue 90 0 0 = 271 ∧ getHue 90 (0 + 1/2) 0 = 541/2 ∧
    getHue 90 (0 + 1/2) 0 < getHue 90 0 0 := by
  refine ⟨?_, ?_, ?_⟩ <;> with_unfolding_all decide

/-- C6 (amended): away from the `theta = 0` quirk, for every `redStart`
and every step `0 < delta < 360`, style 0 strictly increases the hue by
`delta` except at the wrap-around point (where it comes back down by
`360 - delta`), and any nonzero style strictly decreases it by `delta`
except at the wrap-around point. -/
theorem getHue_step_monotone (redStart theta δ : ℚ)
    (hθ : theta ≠ 0) (hθδ : theta + δ ≠ 0) (h0 : 0 < δ) (h1 : δ < 360) :
    (getHue redStart (theta + δ) 0 = getHue redStart theta 0 + δ ∨
     getHue redStart (theta + δ) 0 = getHue redStart theta 0 + δ - 360) ∧
    (∀ style : ℤ, style ≠ 0 →
      (getHue redStart (theta + δ) style = getHue redStart theta style - δ ∨
       getHue redStart (theta + δ) style = getHue redStart theta style - δ + 360)) := by
  constructor
  · rw [getHue, getHue]
    simp only [if_neg hθ, if_neg hθδ, ne_eq, not_true_eq_false, if_false,
      ite_false]
    have harg : 360 + (theta + δ) - redStart = (360 + theta - redStart) + δ := by
      ring
    rw [harg]
    simpa using jsMod_add_step (360 + theta - redStart) δ h0 h1
  · intro style hs
    rw [getHue, getHue]
    simp only [if_neg hθ, if_neg hθδ, if_pos hs, ne_eq, hs, not_false_eq_true,
      ite_true]
    have harg : 360 + 2 * redStart - (theta + δ) =
        (360 + 2 * redStart - theta) - δ := by
      ring
    rw [harg]
    rcases jsMod_sub_step (360 + 2 * redStart - theta) δ h0 h1 with hu | hu
    · rw [hu]
      have harg2 : 360 + (jsMod (360 + 2 * redStart - theta) 360 - δ) - redStart =
          (360 + jsMod (360 + 2 * redStart - theta) 360 - redStart) - δ := by
        ring
      rw [harg2]
      exact jsMod_sub_step _ δ h0 h1
    · rw [hu]
      have harg2 : 360 + (jsMod (360 + 2 * redStart - theta) 360 - δ + 360) - redStart =
          (360 + jsMod (360 + 2 * redStart - theta) 360 - redStart) + (360 - δ) := by
        ring
      rw [harg2]
      rcases jsMod_add_step (360 + jsMod (360 + 2 * redStart - theta) 360 - redStart)
          (360 - δ) (by linarith) (by linarith) with hv | hv
      · right
        rw [hv]
        ring
      · left
        rw [hv]
        ring

/-- C6 witness: the amended step theorem applied at
`redStart = 90, theta = 10, delta = 5`. -/
theorem getHue_step_monotone_witness :
    ((10:ℚ) ≠ 0 ∧ (10:ℚ) + 5 ≠ 0 ∧ (0:ℚ) < 5 ∧ (5:ℚ) < 360) ∧
    ((getHue 90 (10 + 5) 0 = getHue 90 10 0 + 5 ∨
      getHue 90 (10 + 5) 0 = getHue 90 10 0 + 5 - 360) ∧
     (∀ style : ℤ, style ≠ 0 →
       (getHue 90 (10 + 5) style = getHue 90 10 style - 5 ∨
        getHue 90 (10 + 5) style = getHue 90 10 style - 5 + 360))) :=
  ⟨by norm_num,
   getHue_step_monotone 90 10 5 (by norm_num) (by norm_num) (by norm_num)
     (by norm_num)⟩

/-! ### Claims about the HSL to RGB converter -/

theorem jsMod_bounds_of_nonneg (a b : ℚ) (hb : 0 < b) (ha : 0 ≤ a) :
    0 ≤ jsMod a b ∧ jsMod a b < b := by
  have hq : (0:ℚ) ≤ a / b := by positivity
  have h1 : ((⌊a / b⌋ : ℚ)) ≤ a / b := Int.floor_le _
  have h2 : a / b < (⌊a / b⌋ : ℚ) + 1 := Int.lt_floor_add_one _
  have h1' : ((⌊a / b⌋ : ℚ)) * b ≤ a := (le_div_iff₀ hb).mp h1
  have h2' : a < ((⌊a / b⌋ : ℚ) + 1) * b := (div_lt_iff₀ hb).mp h2
  rw [jsMod, rtrunc_of_nonneg hq]
  constructor <;> nlinarith

theorem floor_channel_bounds (q : ℚ) (h0 : 0 ≤ q) (h1 : q ≤ 1) :
    0 ≤ ⌊q * 255⌋ ∧ ⌊q * 255⌋ ≤ 255 := by
  constructor
  · exact Int.floor_nonneg.mpr (by positivity)
  · have hle : q * 255 ≤ ((255 : ℤ) : ℚ) := by push_cast; nlinarith
    calc ⌊q * 255⌋ ≤ ⌊((255 : ℤ) : ℚ)⌋ := Int.floor_le_floor hle
      _ = 255 := Int.floor_intCast _

/-- C4: for hue in `[0,360]` and saturation, lightness in `[0,1]`, each of
the three channels returned by `hsl2rgb` is in `[0,255]` (they are
integers by construction: results of `Math.floor`). -/
theorem hsl2rgb_channels_in_range (hue sat lig : ℚ)
    (hh1 : 0 ≤ hue) (hh2 : hue ≤ 360)
    (hs1 : 0 ≤ sat) (hs2 : sat ≤ 1)
    (hl1 : 0 ≤ lig) (hl2 : lig ≤ 1) :
    (0 ≤ (hsl2rgb hue sat lig).1 ∧ (hsl2rgb hue sat lig).1 ≤ 255) ∧
    (0 ≤ (hsl2rgb hue sat lig).2.1 ∧ (hsl2rgb hue sat lig).2.1 ≤ 255) ∧
    (0 ≤ (hsl2rgb hue sat lig).2.2 ∧ (hsl2rgb hue sat lig).2.2 ≤ 255) := by
  have habs2 : 1 - 2 * lig ≤ |2 * lig - 1| := by
    have h := le_abs_self (1 - 2 * lig)
    rwa [show |1 - 2 * lig| = |2 * lig - 1| from abs_sub_comm 1 (2 * lig)] at h
  have habs3 : 2 * lig - 1 ≤ |2 * lig - 1| := le_abs_self _
  have habs0 : 0 ≤ |2 * lig - 1| := abs_nonneg _
  have habs1 : |2 * lig - 1| ≤ 1 := abs_le.mpr ⟨by linarith, by linarith⟩
  have hw := jsMod_bounds_of_nonneg (hue / 60) 2 (by norm_num) (by positivity)
  have hwabs : |jsMod (hue / 60) 2 - 1| ≤ 1 :=
    abs_le.mpr ⟨by linarith [hw.1], by linarith [hw.2]⟩
  have hwnn : 0 ≤ |jsMod (hue / 60) 2 - 1| := abs_nonneg _
  simp only [hsl2rgb]
  set c : ℚ := (1 - |2 * lig - 1|) * sat with hc
  set v : ℚ := c * (1 - |jsMod (hue / 60) 2 - 1|) with hv
  set m : ℚ := lig - c * (1/2) with hm
  have hc0 : 0 ≤ c := hc ▸ mul_nonneg (by linarith) hs1
  have hc1 : c ≤ 1 - |2 * lig - 1| := hc ▸ mul_le_of_le_one_right (by linarith) hs2
  have hv0 : 0 ≤ v := hv ▸ mul_nonneg hc0 (by linarith)
  have hvc : v ≤ c := hv ▸ mul_le_of_le_one_right hc0 (by linarith)
  have hm0 : 0 ≤ m := by rw [hm]; linarith
  have hcm1 : c + m ≤ 1 := by rw [hm]; linarith
  have hm1 : m ≤ 1 := by linarith
  split_ifs <;>
  · dsimp only
    exact ⟨floor_channel_bounds _ (by linarith) (by linarith),
           floor_channel_bounds _ (by linarith) (by linarith),
           floor_channel_bounds _ (by linarith) (by linarith)⟩

/-- C4 witness: the range theorem applied at
`hue = 200, sat = 1, lig = 1/2`. -/
theorem hsl2rgb_channels_in_range_witness :
    ((0:ℚ) ≤ 200 ∧ (200:ℚ) ≤ 360 ∧ (0:ℚ) ≤ 1 ∧ (1:ℚ) ≤ 1 ∧
     (0:ℚ) ≤ 1/2 ∧ (1:ℚ)/2 ≤ 1) ∧
    ((0 ≤ (hsl2rgb 200 1 (1/2)).1 ∧ (hsl2rgb 200 1 (1/2)).1 ≤ 255) ∧
     (0 ≤ (hsl2rgb 200 1 (1/2)).2.1 ∧ (hsl2rgb 200 1 (1/2)).2.1 ≤ 255) ∧
     (0 ≤ (hsl2rgb 200 1 (1/2)).2.2 ∧ (hsl2rgb 200 1 (1/2)).2.2 ≤ 255)) :=
  ⟨by norm_num,
   hsl2rgb_channels_in_range 200 1 (1/2) (by norm_num) (by norm_num)
     (by norm_num) (by norm_num) (by norm_num) (by norm_num)⟩

/-- C9: at hue exactly 360 the switch takes the duplicated sector-6 branch
`[chroma, 0, x]`, whose `x` is numerically 0 there, so the result agrees
with sector 0 at hue 0, where `x` is also 0: the two calls return
identical triples for every saturation and lightness in `[0,1]`. -/
theorem hsl2rgb_at_hue360_eq_at_hue0 (sat lig : ℚ)
    (hs1 : 0 ≤ sat) (hs2 : sat ≤ 1) (hl1 : 0 ≤ lig) (hl2 : lig ≤ 1) :
    hsl2rgb 360 sat lig = hsl2rgb 0 sat lig := by
  have e1 : (360:ℚ) / 60 = 6 := by norm_num
  have e0 : (0:ℚ) / 60 = 0 := by norm_num
  have f6 : ⌊(6:ℚ)⌋ = 6 := by rw [Int.floor_eq_iff] <;> norm_num
  have f0 : ⌊(0:ℚ)⌋ = 0 := Int.floor_zero
  have f3 : ⌊(3:ℚ)⌋ = 3 := by rw [Int.floor_eq_iff] <;> norm_num
  have g6 : jsMod 6 2 = 0 := by
    rw [jsMod, rtrunc, if_pos (by norm_num : (0:ℚ) ≤ 6 / 2),
      show (6:ℚ)/2 = 3 by norm_num, f3]
    norm_num
  have g0 : jsMod 0 2 = 0 := by
    rw [jsMod, rtrunc, if_pos (by norm_num : (0:ℚ) ≤ 0 / 2),
      show (0:ℚ)/2 = 0 by norm_num, f0]
    norm_num
  simp only [hsl2rgb, e1, e0, f6, f0, g6, g0]
  norm_num

/-- C9 witness: the theorem applied at `sat = 1, lig = 1/2`. -/
theorem hsl2rgb_at_hue360_eq_at_hue0_witness :
    ((0:ℚ) ≤ 1 ∧ (1:ℚ) ≤ 1 ∧ (0:ℚ) ≤ 1/2 ∧ (1:ℚ)/2 ≤ 1) ∧
    hsl2rgb 360 1 (1/2) = hsl2rgb 0 1 (1/2) :=
  ⟨by norm_num,
   hsl2rgb_at_hue360_eq_at_hue0 1 (1/2) (by norm_num) (by norm_num)
     (by norm_num) (by norm_num)⟩

/-- C10: at the lightness extremes chroma is 0, so hue and saturation are
irrelevant: lightness 0 gives black `(0,0,0)` and lightness 1 gives white
`(255,255,255)`, for every hue in `[0,360]` and saturation in `[0,1]`. -/
theorem hsl2rgb_lightness_extremes (hue sat : ℚ)
    (hh1 : 0 ≤ hue) (hh2 : hue ≤ 360) (hs1 : 0 ≤ sat) (hs2 : sat ≤ 1) :
    hsl2rgb hue sat 0 = (0, 0, 0) ∧ hsl2rgb hue sat 1 = (255, 255, 255) := by
  have f255 : ⌊(255:ℚ)⌋ = 255 := by rw [Int.floor_eq_iff] <;> norm_num
  constructor
  · simp only [hsl2rgb]
    norm_num
  · simp only [hsl2rgb]
    norm_num [f255]

/-- C10 witness: the theorem applied at `hue = 123, sat = 3/4`. -/
theorem hsl2rgb_lightness_extremes_witness :
    ((0:ℚ) ≤ 123 ∧ (123:ℚ) ≤ 360 ∧ (0:ℚ) ≤ 3/4 ∧ (3:ℚ)/4 ≤ 1) ∧
    (hsl2rgb 123 (3/4) 0 = (0, 0, 0) ∧ hsl2rgb 123 (3/4) 1 = (255, 255, 255)) :=
  ⟨by norm_num,
   hsl2rgb_lightness_extremes 123 (3/4) (by norm_num) (by norm_num)
     (by norm_num) (by norm_num)⟩

/-! ### Claims about the RGB to HSL converter -/

theorem roundUp_bounds (num a : ℚ) :
    ⌊num⌋ ≤ roundUp num a ∧ roundUp num a ≤ ⌈num⌉ := by
  simp only [roundUp]
  split_ifs
  · exact ⟨Int.floor_le_ceil num, le_refl _⟩
  · exact ⟨le_refl _, Int.floor_le_ceil num⟩

theorem roundUp_scaled_range (num : ℚ) (n : ℤ) (h0 : 0 ≤ num)
    (h1 : num ≤ (n : ℚ)) :
    0 ≤ (roundUp num 5 : ℚ) ∧ (roundUp num 5 : ℚ) ≤ (n : ℚ) := by
  obtain ⟨hf, hc⟩ := roundUp_bounds num 5
  have hfl : 0 ≤ ⌊num⌋ := Int.floor_nonneg.mpr h0
  have hcl : ⌈num⌉ ≤ n := Int.ceil_le.mpr h1
  constructor
  · exact_mod_cast le_trans hfl hf
  · exact_mod_cast le_trans hc hcl

/-- C2 counterexample: `roundUp(x, 5)` rounds to the nearest integer (5 is
the half-up threshold, not a step size), so `rgb2hsl(255, 13, 0)` returns
hue 3, which is not a multiple of 5. -/
theorem rgb2hsl_hue_not_multiple_of_five :
    (rgb2hsl 255 13 0).1 = 3 ∧ ∀ k : ℤ, (rgb2hsl 255 13 0).1 ≠ 5 * (k : ℚ) := by
  have h3 : (rgb2hsl 255 13 0).1 = 3 := by with_unfolding_all decide
  refine ⟨h3, fun k hk => ?_⟩
  rw [h3] at hk
  have hz : (3 : ℤ) = 5 * k := by exact_mod_cast hk
  omega

/-- C2 (amended): the components are quantized to the integer grid, not to
multiples of 5: for integer inputs in `[0,255]` the returned hue is an
integer number of degrees and the returned saturation and lightness are
integer multiples of `1/100` (i.e. of 1 on the percent scale). -/
theorem rgb2hsl_quantized (R G B : ℕ)
    (hR : R ≤ 255) (hG : G ≤ 255) (hB : B ≤ 255) :
    ∃ i j k : ℤ, rgb2hsl (R : ℚ) (G : ℚ) (B : ℚ) =
      ((i : ℚ), (j : ℚ) * (1/100), (k : ℚ) * (1/100)) := by
  simp only [rgb2hsl]
  exact ⟨_, _, _, rfl⟩

/-- C2 witness: the quantization theorem applied at `(10, 20, 30)`. -/
theorem rgb2hsl_quantized_witness :
    ((10 ≤ 255) ∧ (20 ≤ 255) ∧ (30 ≤ 255)) ∧
    ∃ i j k : ℤ, rgb2hsl ((10:ℕ) : ℚ) ((20:ℕ) : ℚ) ((30:ℕ) : ℚ) =
      ((i : ℚ), (j : ℚ) * (1/100), (k : ℚ) * (1/100)) :=
  ⟨by norm_num, rgb2hsl_quantized 10 20 30 (by norm_num) (by norm_num)
    (by norm_num)⟩

/-- C3 counterexample: `rgb2hsl(255, 0, 1)` has raw hue `360 - 4/17`,
which round-half-up takes to exactly 360, outside `[0,360)`. -/
theorem rgb2hsl_hue_reaches_360 :
    (rgb2hsl 255 0 1).1 = 360 ∧ ¬ ((rgb2hsl 255 0 1).1 < 360) := by
  constructor
  · with_unfolding_all decide
  · with_unfolding_all decide

set_option maxHeartbeats 1600000 in
/-- C3 (amended): for integer inputs in `[0,255]`, `rgb2hsl` returns a hue
in `[0,360]` (the value 360 is attained, see the counterexample), a
saturation in `[0,1]` and a lightness in `[0,1]`. -/
theorem rgb2hsl_range (R G B : ℕ)
    (hR : R ≤ 255) (hG : G ≤ 255) (hB : B ≤ 255) :
    (0 ≤ (rgb2hsl (R : ℚ) (G : ℚ) (B : ℚ)).1 ∧
      (rgb2hsl (R : ℚ) (G : ℚ) (B : ℚ)).1 ≤ 360) ∧
    (0 ≤ (rgb2hsl (R : ℚ) (G : ℚ) (B : ℚ)).2.1 ∧
      (rgb2hsl (R : ℚ) (G : ℚ) (B : ℚ)).2.1 ≤ 1) ∧
    (0 ≤ (rgb2hsl (R : ℚ) (G : ℚ) (B : ℚ)).2.2 ∧
      (rgb2hsl (R : ℚ) (G : ℚ) (B : ℚ)).2.2 ≤ 1) := by
  simp only [rgb2hsl]
  set r : ℚ := (R : ℚ) / 255 with hrdef
  set g : ℚ := (G : ℚ) / 255 with hgdef
  set b : ℚ := (B : ℚ) / 255 with hbdef
  have hr0 : 0 ≤ r := by rw [hrdef]; positivity
  have hg0 : 0 ≤ g := by rw [hgdef]; positivity
  have hb0 : 0 ≤ b := by rw [hbdef]; positivity
  have hr1 : r ≤ 1 := by
    rw [hrdef, div_le_one (by norm_num : (0:ℚ) < 255)]
    exact_mod_cast hR
  have hg1 : g ≤ 1 := by
    rw [hgdef, div_le_one (by norm_num : (0:ℚ) < 255)]
    exact_mod_cast hG
  have hb1 : b ≤ 1 := by
    rw [hbdef, div_le_one (by norm_num : (0:ℚ) < 255)]
    exact_mod_cast hB
  set MAX : ℚ := max r (max g b) with hMAXdef
  set MIN : ℚ := min r (min g b) with hMINdef
  have hrM : r ≤ MAX := le_max_left _ _
  have hgM : g ≤ MAX := le_trans (le_max_left _ _) (le_max_right _ _)
  have hbM : b ≤ MAX := le_trans (le_max_right _ _) (le_max_right _ _)
  have hmr : MIN ≤ r := min_le_left _ _
  have hmg : MIN ≤ g := le_trans (min_le_right _ _) (min_le_left _ _)
  have hmb : MIN ≤ b := le_trans (min_le_right _ _) (min_le_right _ _)
  have hM0 : 0 ≤ MAX := le_trans hr0 hrM
  have hM1 : MAX ≤ 1 := max_le hr1 (max_le hg1 hb1)
  have hm0 : 0 ≤ MIN := le_min hr0 (le_min hg0 hb0)
  have hm1 : MIN ≤ 1 := le_trans hmr hr1
  have hmM : MIN ≤ MAX := le_trans hmr hrM
  have hue0b : -60 ≤ (if MAX = MIN then (0:ℚ)
        else if MAX = r then 60 * (g - b) / (MAX - MIN)
        else if MAX = g then 60 * (2 + (b - r) / (MAX - MIN))
        else 60 * (4 + (r - g) / (MAX - MIN))) ∧
      (if MAX = MIN then (0:ℚ)
        else if MAX = r then 60 * (g - b) / (MAX - MIN)
        else if MAX = g then 60 * (2 + (b - r) / (MAX - MIN))
        else 60 * (4 + (r - g) / (MAX - MIN))) ≤ 300 := by
    split_ifs with h1 h2 h3
    · norm_num
    · have hΔ : 0 < MAX - MIN := sub_pos.mpr (lt_of_le_of_ne hmM (Ne.symm h1))
      constructor
      · rw [le_div_iff₀ hΔ]
        linarith
      · rw [div_le_iff₀ hΔ]
        linarith
    · have hΔ : 0 < MAX - MIN := sub_pos.mpr (lt_of_le_of_ne hmM (Ne.symm h1))
      have hq1 : (b - r) / (MAX - MIN) ≤ 1 :=
        (div_le_one hΔ).mpr (by linarith)
      have hq2 : -1 ≤ (b - r) / (MAX - MIN) := by
        rw [le_div_iff₀ hΔ]
        linarith
      constructor <;> linarith
    · have hΔ : 0 < MAX - MIN := sub_pos.mpr (lt_of_le_of_ne hmM (Ne.symm h1))
      have hq1 : (r - g) / (MAX - MIN) ≤ 1 :=
        (div_le_one hΔ).mpr (by linarith)
      have hq2 : -1 ≤ (r - g) / (MAX - MIN) := by
        rw [le_div_iff₀ hΔ]
        linarith
      constructor <;> linarith
  set hue0 : ℚ := (if MAX = MIN then (0:ℚ)
      else if MAX = r then 60 * (g - b) / (MAX - MIN)
      else if MAX = g then 60 * (2 + (b - r) / (MAX - MIN))
      else 60 * (4 + (r - g) / (MAX - MIN))) with hhue0def
  have hueb : 0 ≤ (if hue0 < 0 then hue0 + 360 else hue0) ∧
      (if hue0 < 0 then hue0 + 360 else hue0) ≤ 360 := by
    split_ifs with h
    · exact ⟨by linarith [hue0b.1], by linarith⟩
    · push_neg at h
      exact ⟨h, by linarith [hue0b.2]⟩
  set hue : ℚ := (if hue0 < 0 then hue0 + 360 else hue0) with hhuedef
  set L : ℚ := (MAX + MIN) * (1/2) with hLdef
  have hL0 : 0 ≤ L := by rw [hLdef]; linarith
  have hL1 : L ≤ 1 := by rw [hLdef]; linarith
  have hSb : 0 ≤ (if MAX = 0 ∨ MIN = 1 then (0:ℚ)
        else (MAX - L) / min L (1 - L)) ∧
      (if MAX = 0 ∨ MIN = 1 then (0:ℚ)
        else (MAX - L) / min L (1 - L)) ≤ 1 := by
    split_ifs with h
    · norm_num
    · push_neg at h
      have hMpos : 0 < MAX := lt_of_le_of_ne hM0 (Ne.symm h.1)
      have hmlt1 : MIN < 1 := lt_of_le_of_ne hm1 h.2
      have hLpos : 0 < L := by rw [hLdef]; linarith
      have hL1' : L < 1 := by rw [hLdef]; linarith
      have hden : 0 < min L (1 - L) := lt_min hLpos (by linarith)
      constructor
      · apply div_nonneg _ (le_of_lt hden)
        rw [hLdef]
        linarith
      · rw [div_le_one hden]
        refine le_min ?_ ?_ <;> rw [hLdef] <;> linarith
  set S : ℚ := (if MAX = 0 ∨ MIN = 1 then (0:ℚ)
      else (MAX - L) / min L (1 - L)) with hSdef
  have h100 : 0 ≤ S * 100 ∧ S * 100 ≤ ((100 : ℤ) : ℚ) := by
    constructor
    · linarith [hSb.1]
    · push_cast
      linarith [hSb.2]
  have hL100 : 0 ≤ L * 100 ∧ L * 100 ≤ ((100 : ℤ) : ℚ) := by
    constructor
    · linarith
    · push_cast
      linarith
  have hhue360 : hue ≤ ((360 : ℤ) : ℚ) := by push_cast; exact hueb.2
  obtain ⟨ha1, ha2⟩ := roundUp_scaled_range hue 360 hueb.1 hhue360
  obtain ⟨hb1', hb2'⟩ := roundUp_scaled_range (S * 100) 100 h100.1 h100.2
  obtain ⟨hc1, hc2⟩ := roundUp_scaled_range (L * 100) 100 hL100.1 hL100.2
  refine ⟨⟨ha1, by push_cast at ha2 ⊢; linarith⟩,
    ⟨by linarith, ?_⟩, ⟨by linarith, ?_⟩⟩
  · push_cast at hb2'
    linarith
  · push_cast at hc2
    linarith

/-- C3 witness: the range theorem applied at `(200, 100, 50)`. -/
theorem rgb2hsl_range_witness :
    ((200 ≤ 255) ∧ (100 ≤ 255) ∧ (50 ≤ 255)) ∧
    ((0 ≤ (rgb2hsl ((200:ℕ) : ℚ) ((100:ℕ) : ℚ) ((50:ℕ) : ℚ)).1 ∧
      (rgb2hsl ((200:ℕ) : ℚ) ((100:ℕ) : ℚ) ((50:ℕ) : ℚ)).1 ≤ 360) ∧
     (0 ≤ (rgb2hsl ((200:ℕ) : ℚ) ((100:ℕ) : ℚ) ((50:ℕ) : ℚ)).2.1 ∧
      (rgb2hsl ((200:ℕ) : ℚ) ((100:ℕ) : ℚ) ((50:ℕ) : ℚ)).2.1 ≤ 1) ∧
     (0 ≤ (rgb2hsl ((200:ℕ) : ℚ) ((100:ℕ) : ℚ) ((50:ℕ) : ℚ)).2.2 ∧
      (rgb2hsl ((200:ℕ) : ℚ) ((100:ℕ) : ℚ) ((50:ℕ) : ℚ)).2.2 ≤ 1)) :=
  ⟨by norm_num, rgb2hsl_range 200 100 50 (by norm_num) (by norm_num)
    (by norm_num)⟩

/-! ### Claims about the wheel rasterizer -/

theorem mem_coords {o : ℕ} {z : ℤ} :
    z ∈ coords o ↔ -(o:ℤ) ≤ z ∧ z < o := by
  rw [coords]
  constructor
  · intro hz
    obtain ⟨i, hi, hiz⟩ := List.mem_map.mp hz
    have hir := List.mem_range.mp hi
    have hiz' : (i : ℤ) - o = z := hiz
    omega
  · intro h
    refine List.mem_map.mpr ⟨(z + o).toNat, List.mem_range.mpr (by omega), ?_⟩
    show ((z + o).toNat : ℤ) - o = z
    omega

theorem mem_wheelPixels {o : ℕ} {p : ℤ × ℤ} :
    p ∈ wheelPixels o ↔
      (-(o:ℤ) ≤ p.1 ∧ p.1 < o) ∧ (-(o:ℤ) ≤ p.2 ∧ p.2 < o) := by
  rw [wheelPixels]
  constructor
  · intro hp
    obtain ⟨x, hx, hxp⟩ := List.mem_flatMap.mp hp
    obtain ⟨y, hy, hyp⟩ := List.mem_map.mp hxp
    have hyp' : (x, y) = p := hyp
    rw [← hyp']
    exact ⟨mem_coords.mp hx, mem_coords.mp hy⟩
  · rintro ⟨h1, h2⟩
    refine List.mem_flatMap.mpr ⟨p.1, mem_coords.mpr h1, ?_⟩
    refine List.mem_map.mpr ⟨p.2, mem_coords.mpr h2, ?_⟩
    rfl

theorem pixelIndex_inj (o : ℕ) (ho : 0 < o) (x y x' y' k k' : ℤ)
    (hx1 : -(o:ℤ) ≤ x) (hx2 : x < o) (hy1 : -(o:ℤ) ≤ y) (hy2 : y < o)
    (hx1' : -(o:ℤ) ≤ x') (hx2' : x' < o) (hy1' : -(o:ℤ) ≤ y') (hy2' : y' < o)
    (hk0 : 0 ≤ k) (hk4 : k < 4) (hk0' : 0 ≤ k') (hk4' : k' < 4)
    (heq : pixelIndex o x y + k = pixelIndex o x' y' + k') :
    x = x' ∧ y = y' ∧ k = k' := by
  simp only [pixelIndex] at heq
  generalize hA : (y + (o:ℤ)) * (2 * (o:ℤ)) + (x + (o:ℤ)) = A at heq
  generalize hA' : (y' + (o:ℤ)) * (2 * (o:ℤ)) + (x' + (o:ℤ)) = A' at heq
  have hkk : k = k' := by omega
  have hAA : A = A' := by omega
  rw [← hA, ← hA'] at hAA
  have e1 : (y - y') * (2 * (o:ℤ)) = x' - x := by linear_combination hAA
  have ho' : (0:ℤ) < (o:ℤ) := by exact_mod_cast ho
  have hY : y - y' = 0 := by
    rcases lt_trichotomy (y - y') 0 with hlt | heq0 | hgt
    · have h1 : y - y' ≤ -1 := by omega
      have h2 : (y - y') * (2 * (o:ℤ)) ≤ (-1) * (2 * (o:ℤ)) :=
        mul_le_mul_of_nonneg_right h1 (by linarith)
      rw [e1] at h2
      omega
    · exact heq0
    · have h1 : (1:ℤ) ≤ y - y' := by omega
      have h2 : (1:ℤ) * (2 * (o:ℤ)) ≤ (y - y') * (2 * (o:ℤ)) :=
        mul_le_mul_of_nonneg_right h1 (by linarith)
      rw [e1] at h2
      omega
  rw [hY, zero_mul] at e1
  exact ⟨by omega, by omega, hkk⟩

theorem renderPixel_skip (angle : ℤ → ℤ → ℚ) (si so : ℤ) (o : ℕ)
    (cfg : WheelConfig) (buf : ℤ → ℤ) (x y : ℤ)
    (h : x * x + y * y > so ∨ x * x + y * y < si) :
    renderPixel angle si so o cfg buf x y = buf := by
  simp only [renderPixel]
  rw [if_pos h]

theorem renderPixel_frame (angle : ℤ → ℤ → ℚ) (si so : ℤ) (o : ℕ)
    (cfg : WheelConfig) (buf : ℤ → ℤ) (x y n : ℤ)
    (h : ∀ k : ℤ, 0 ≤ k → k < 4 → n ≠ pixelIndex o x y + k) :
    renderPixel angle si so o cfg buf x y n = buf n := by
  have h0 : n ≠ pixelIndex o x y := by
    have := h 0 (by norm_num) (by norm_num)
    simpa using this
  have h1 := h 1 (by norm_num) (by norm_num)
  have h2 := h 2 (by norm_num) (by norm_num)
  have h3 := h 3 (by norm_num) (by norm_num)
  simp only [renderPixel]
  split_ifs
  · rfl
  · rw [Function.update_noteq h3, Function.update_noteq h2,
      Function.update_noteq h1, Function.update_noteq h0]

theorem renderPixel_write (angle : ℤ → ℤ → ℚ) (si so : ℤ) (o : ℕ)
    (cfg : WheelConfig) (buf : ℤ → ℤ) (x y k : ℤ)
    (hin : ¬ (x * x + y * y > so ∨ x * x + y * y < si))
    (hk0 : 0 ≤ k) (hk4 : k < 4) :
    renderPixel angle si so o cfg buf x y (pixelIndex o x y + k) =
      byteOf (pixelRGBA angle cfg x y) k := by
  simp only [renderPixel]
  rw [if_neg hin]
  have hk : k = 0 ∨ k = 1 ∨ k = 2 ∨ k = 3 := by omega
  rcases hk with rfl | rfl | rfl | rfl
  · rw [Function.update_noteq (by omega : pixelIndex o x y + 0 ≠ pixelIndex o x y + 3),
      Function.update_noteq (by omega : pixelIndex o x y + 0 ≠ pixelIndex o x y + 2),
      Function.update_noteq (by omega : pixelIndex o x y + 0 ≠ pixelIndex o x y + 1),
      show pixelIndex o x y + 0 = pixelIndex o x y by ring, Function.update_same]
    norm_num [byteOf]
  · rw [Function.update_noteq (by omega : pixelIndex o x y + 1 ≠ pixelIndex o x y + 3),
      Function.update_noteq (by omega : pixelIndex o x y + 1 ≠ pixelIndex o x y + 2),
      Function.update_same]
    norm_num [byteOf]
  · rw [Function.update_noteq (by omega : pixelIndex o x y + 2 ≠ pixelIndex o x y + 3),
      Function.update_same]
    norm_num [byteOf]
  · rw [Function.update_same]
    norm_num [byteOf]

theorem renderFold_frame (angle : ℤ → ℤ → ℚ) (si so : ℤ) (o : ℕ)
    (cfg : WheelConfig) (n : ℤ) :
    ∀ (l : List (ℤ × ℤ)) (buf : ℤ → ℤ),
      (∀ p ∈ l, ¬ (p.1 * p.1 + p.2 * p.2 > so ∨ p.1 * p.1 + p.2 * p.2 < si) →
        ∀ k : ℤ, 0 ≤ k → k < 4 → n ≠ pixelIndex o p.1 p.2 + k) →
      l.foldl (fun b p => renderPixel angle si so o cfg b p.1 p.2) buf n =
        buf n := by
  intro l
  induction l with
  | nil => intro buf _; rfl
  | cons q t ih =>
    intro buf h
    rw [List.foldl_cons, ih _ (fun p hp => h p (List.mem_cons_of_mem q hp))]
    by_cases hskip : q.1 * q.1 + q.2 * q.2 > so ∨ q.1 * q.1 + q.2 * q.2 < si
    · rw [renderPixel_skip angle si so o cfg buf q.1 q.2 hskip]
    · exact renderPixel_frame angle si so o cfg buf q.1 q.2 n
        (h q (List.mem_cons_self q t) hskip)

theorem renderFold_write (angle : ℤ → ℤ → ℚ) (si so : ℤ) (o : ℕ)
    (cfg : WheelConfig) (n x y k : ℤ)
    (hk0 : 0 ≤ k) (hk4 : k < 4)
    (hn : n = pixelIndex o x y + k)
    (hin : ¬ (x * x + y * y > so ∨ x * x + y * y < si)) :
    ∀ (l : List (ℤ × ℤ)) (buf : ℤ → ℤ),
      (∀ q ∈ l, (∃ k' : ℤ, 0 ≤ k' ∧ k' < 4 ∧ n = pixelIndex o q.1 q.2 + k') →
        q = (x, y)) →
      l.foldl (fun b p => renderPixel angle si so o cfg b p.1 p.2) buf n =
        if (x, y) ∈ l then byteOf (pixelRGBA angle cfg x y) k else buf n := by
  intro l
  induction l with
  | nil =>
    intro buf _
    simp
  | cons q t ih =>
    intro buf h
    rw [List.foldl_cons, ih _ (fun p hp hex => h p (List.mem_cons_of_mem q hp) hex)]
    by_cases hq : ∃ k' : ℤ, 0 ≤ k' ∧ k' < 4 ∧ n = pixelIndex o q.1 q.2 + k'
    · have hqxy : q = (x, y) := h q (List.mem_cons_self q t) hq
      have hq1 : q.1 = x := by rw [hqxy]
      have hq2 : q.2 = y := by rw [hqxy]
      have hstep : renderPixel angle si so o cfg buf q.1 q.2 n =
          byteOf (pixelRGBA angle cfg x y) k := by
        rw [hq1, hq2, hn]
        exact renderPixel_write angle si so o cfg buf x y k hin hk0 hk4
      rw [if_pos (by rw [hqxy]; exact List.mem_cons_self _ t : (x, y) ∈ q :: t)]
      by_cases hmem : (x, y) ∈ t
      · rw [if_pos hmem]
      · rw [if_neg hmem, hstep]
    · have hqne : q ≠ (x, y) := by
        intro hcontra
        exact hq ⟨k, hk0, hk4, by rw [hcontra]; exact hn⟩
      have hstep : renderPixel angle si so o cfg buf q.1 q.2 n = buf n := by
        by_cases hskip : q.1 * q.1 + q.2 * q.2 > so ∨ q.1 * q.1 + q.2 * q.2 < si
        · rw [renderPixel_skip angle si so o cfg buf q.1 q.2 hskip]
        · refine renderPixel_frame angle si so o cfg buf q.1 q.2 n ?_
          intro k' hk0' hk4' hcontra
          exact hq ⟨k', hk0', hk4', hcontra⟩
      rw [hstep]
      by_cases hmem : (x, y) ∈ t
      · rw [if_pos hmem, if_pos (List.mem_cons_of_mem q hmem)]
      · rw [if_neg hmem, if_neg ?_]
        intro hc
        rcases List.mem_cons.mp hc with hc' | hc'
        · exact hqne hc'.symm
        · exact hmem hc'

/-- C7: with outer radius `o = innerRadius + thickness`, one render call
writes a pixel's four bytes if and only if the pixel's squared center
distance lies in `[innerRadius^2, o^2]`: part one says every byte of an
in-range pixel outside the annulus is left unchanged, part two says every
byte of an in-annulus pixel holds the freshly computed RGBA value. -/
theorem render_writes_exactly_annulus (angle : ℤ → ℤ → ℚ)
    (ir th o : ℕ) (hth : 1 ≤ th) (ho : o = ir + th)
    (cfg : WheelConfig) (buf : ℤ → ℤ) :
    (∀ x y : ℤ, -(o:ℤ) ≤ x → x < o → -(o:ℤ) ≤ y → y < o →
      (x * x + y * y > (o:ℤ) * o ∨ x * x + y * y < (ir:ℤ) * ir) →
      ∀ k : ℤ, 0 ≤ k → k < 4 →
        render angle ir th cfg buf (pixelIndex o x y + k) =
          buf (pixelIndex o x y + k)) ∧
    (∀ x y : ℤ, -(o:ℤ) ≤ x → x < o → -(o:ℤ) ≤ y → y < o →
      (ir:ℤ) * ir ≤ x * x + y * y → x * x + y * y ≤ (o:ℤ) * o →
      ∀ k : ℤ, 0 ≤ k → k < 4 →
        render angle ir th cfg buf (pixelIndex o x y + k) =
          byteOf (pixelRGBA angle cfg x y) k) := by
  subst ho
  constructor
  · intro x y hx1 hx2 hy1 hy2 hout k hk0 hk4
    simp only [render]
    apply renderFold_frame
    intro p hp hpin k' hk0' hk4' heqn
    obtain ⟨hpb1, hpb2⟩ := mem_wheelPixels.mp hp
    obtain ⟨hx', hy', hkk⟩ := pixelIndex_inj (ir + th) (by omega) x y p.1 p.2
      k k' hx1 hx2 hy1 hy2 hpb1.1 hpb1.2 hpb2.1 hpb2.2 hk0 hk4 hk0' hk4' heqn
    rw [← hx', ← hy'] at hpin
    exact hpin hout
  · intro x y hx1 hx2 hy1 hy2 hlo hhi k hk0 hk4
    have hin : ¬ (x * x + y * y > ((ir + th : ℕ):ℤ) * ((ir + th : ℕ):ℤ) ∨
        x * x + y * y < (ir:ℤ) * ir) :=
      not_or.mpr ⟨not_lt.mpr hhi, not_lt.mpr hlo⟩
    have huniq : ∀ q ∈ wheelPixels (ir + th),
        (∃ k' : ℤ, 0 ≤ k' ∧ k' < 4 ∧
          pixelIndex (ir + th) x y + k = pixelIndex (ir + th) q.1 q.2 + k') →
        q = (x, y) := by
      intro q hq hex
      obtain ⟨k', hk0', hk4', heqn⟩ := hex
      obtain ⟨hqb1, hqb2⟩ := mem_wheelPixels.mp hq
      obtain ⟨hx', hy', hkk⟩ := pixelIndex_inj (ir + th) (by omega) x y q.1 q.2
        k k' hx1 hx2 hy1 hy2 hqb1.1 hqb1.2 hqb2.1 hqb2.2 hk0 hk4 hk0' hk4' heqn
      exact Prod.ext hx'.symm hy'.symm
    simp only [render]
    rw [renderFold_write angle ((ir:ℤ) * ir) (((ir + th : ℕ):ℤ) * ((ir + th : ℕ):ℤ))
        (ir + th) cfg (pixelIndex (ir + th) x y + k) x y k hk0 hk4 rfl hin
        (wheelPixels (ir + th)) buf huniq,
      if_pos (mem_wheelPixels.mpr ⟨⟨hx1, hx2⟩, ⟨hy1, hy2⟩⟩)]

/-- C7 witness: with `innerRadius = 0`, `thickness = 1` the pixel
`(-1,-1)` (squared distance 2, outside the annulus) keeps the prior buffer
value 7, while the in-annulus pixel `(-1,0)` (squared distance 1) holds
its computed red byte. -/
theorem render_writes_exactly_annulus_witness :
    ((1:ℕ) ≤ 1 ∧ (1:ℕ) = 0 + 1) ∧
    render (fun _ _ => (0:ℚ)) 0 1 ⟨90, 0, 1, 1/2, 255⟩ (fun _ => (7:ℤ))
        (pixelIndex 1 (-1) (-1) + 0) = 7 ∧
    render (fun _ _ => (0:ℚ)) 0 1 ⟨90, 0, 1, 1/2, 255⟩ (fun _ => (7:ℤ))
        (pixelIndex 1 (-1) 0 + 0) =
      byteOf (pixelRGBA (fun _ _ => (0:ℚ)) ⟨90, 0, 1, 1/2, 255⟩ (-1) 0) 0 :=
  ⟨⟨le_refl 1, rfl⟩,
   (render_writes_exactly_annulus (fun _ _ => (0:ℚ)) 0 1 1 (le_refl 1) rfl
       ⟨90, 0, 1, 1/2, 255⟩ (fun _ => (7:ℤ))).1 (-1) (-1)
     (by norm_num) (by norm_num) (by norm_num) (by norm_num)
     (by norm_num) 0 (by norm_num) (by norm_num),
   (render_writes_exactly_annulus (fun _ _ => (0:ℚ)) 0 1 1 (le_refl 1) rfl
       ⟨90, 0, 1, 1/2, 255⟩ (fun _ => (7:ℤ))).2 (-1) 0
     (by norm_num) (by norm_num) (by norm_num) (by norm_num)
     (by norm_num) (by norm_num) 0 (by norm_num) (by norm_num)⟩

/-- C8: rendering is deterministic and pixel-local: the render function is
a pure function of its inputs (equal buffers give byte-identical outputs),
and every byte of every in-annulus pixel equals `byteOf (pixelRGBA ...)`,
a value depending only on that pixel's own coordinates and the
configuration, for any initial buffer contents. -/
theorem render_deterministic_pixel_local (angle : ℤ → ℤ → ℚ)
    (ir th o : ℕ) (hth : 1 ≤ th) (ho : o = ir + th) (cfg : WheelConfig) :
    (∀ buf1 buf2 : ℤ → ℤ, buf1 = buf2 →
      render angle ir th cfg buf1 = render angle ir th cfg buf2) ∧
    (∀ buf1 buf2 : ℤ → ℤ, ∀ x y : ℤ,
      -(o:ℤ) ≤ x → x < o → -(o:ℤ) ≤ y → y < o →
      (ir:ℤ) * ir ≤ x * x + y * y → x * x + y * y ≤ (o:ℤ) * o →
      ∀ k : ℤ, 0 ≤ k → k < 4 →
        render angle ir th cfg buf1 (pixelIndex o x y + k) =
          byteOf (pixelRGBA angle cfg x y) k ∧
        render angle ir th cfg buf2 (pixelIndex o x y + k) =
          byteOf (pixelRGBA angle cfg x y) k) := by
  constructor
  · intro buf1 buf2 h
    rw [h]
  · intro buf1 buf2 x y hx1 hx2 hy1 hy2 hlo hhi k hk0 hk4
    subst ho
    have hin : ¬ (x * x + y * y > ((ir + th : ℕ):ℤ) * ((ir + th : ℕ):ℤ) ∨
        x * x + y * y < (ir:ℤ) * ir) :=
      not_or.mpr ⟨not_lt.mpr hhi, not_lt.mpr hlo⟩
    have huniq : ∀ q ∈ wheelPixels (ir + th),
        (∃ k' : ℤ, 0 ≤ k' ∧ k' < 4 ∧
          pixelIndex (ir + th) x y + k = pixelIndex (ir + th) q.1 q.2 + k') →
        q = (x, y) := by
      intro q hq hex
      obtain ⟨k', hk0', hk4', heqn⟩ := hex
      obtain ⟨hqb1, hqb2⟩ := mem_wheelPixels.mp hq
      obtain ⟨hx', hy', hkk⟩ := pixelIndex_inj (ir + th) (by omega) x y q.1 q.2
        k k' hx1 hx2 hy1 hy2 hqb1.1 hqb1.2 hqb2.1 hqb2.2 hk0 hk4 hk0' hk4' heqn
      exact Prod.ext hx'.symm hy'.symm
    constructor <;>
    · simp only [render]
      rw [renderFold_write angle ((ir:ℤ) * ir)
          (((ir + th : ℕ):ℤ) * ((ir + th : ℕ):ℤ)) (ir + th) cfg
          (pixelIndex (ir + th) x y + k) x y k hk0 hk4 rfl hin
          (wheelPixels (ir + th)) _ huniq,
        if_pos (mem_wheelPixels.mpr ⟨⟨hx1, hx2⟩, ⟨hy1, hy2⟩⟩)]

/-- C8 witness: with `innerRadius = 0`, `thickness = 1`, the opacity byte
of the in-annulus pixel `(0,-1)` takes the same configuration-determined
value for two different initial buffers. -/
theorem render_deterministic_pixel_local_witness :
    ((1:ℕ) ≤ 1 ∧ (1:ℕ) = 0 + 1) ∧
    (render (fun _ _ => (0:ℚ)) 0 1 ⟨90, 0, 1, 1/2, 255⟩ (fun _ => (0:ℤ))
        (pixelIndex 1 0 (-1) + 3) =
      byteOf (pixelRGBA (fun _ _ => (0:ℚ)) ⟨90, 0, 1, 1/2, 255⟩ 0 (-1)) 3 ∧
     render (fun _ _ => (0:ℚ)) 0 1 ⟨90, 0, 1, 1/2, 255⟩ (fun _ => (9:ℤ))
        (pixelIndex 1 0 (-1) + 3) =
      byteOf (pixelRGBA (fun _ _ => (0:ℚ)) ⟨90, 0, 1, 1/2, 255⟩ 0 (-1)) 3) :=
  ⟨⟨le_refl 1, rfl⟩,
   (render_deterministic_pixel_local (fun _ _ => (0:ℚ)) 0 1 1 (le_refl 1) rfl
       ⟨90, 0, 1, 1/2, 255⟩).2 (fun _ => (0:ℤ)) (fun _ => (9:ℤ)) 0 (-1)
     (by norm_num) (by norm_num) (by norm_num) (by norm_num)
     (by norm_num) (by norm_num) 3 (by norm_num) (by norm_num)⟩
